import Mathlib

/-!
Verification of the PNG pHYs (pixel-density) patcher of `png_dpi_util.h`.

The embedding models the pure core of `update_png_dpi`: the file's bytes are
a `List Nat` (each entry a byte value), the fixed output buffer capacity is
`MAX_PNG_SIZE + 64`, and the chunk-rewriting `while` loop is `pngPatchLoopF`.
File I/O (open/read/write failures, codes 1, 2, 24, 30, 31) is outside the
model; the direct-overwrite commit is modelled by `update_png_dpi_file`,
which captures that every validation error returns before the destructive
`fopen(path, "wb")`.  C `double` arithmetic in `_png_dpi_to_ppm` is modelled
faithfully as IEEE-754 binary64: `roundDouble` rounds a positive rational to
53 significand bits by round-to-nearest, ties-to-even (exact in the normal,
non-overflowing range used here), and every C `double` operation — the
compile-time rounding of the literal 39.37007874, the product `dpi * factor`,
and the sum `x + 0.5` — applies it to the exact rational result.
-/

namespace PngDpi

/-- The 8-byte PNG signature (`PNG_SIG` in png_dpi_util.h). -/
def pngSig : List Nat := [137, 80, 78, 71, 13, 10, 26, 10]

/-- `MAX_PNG_SIZE`: maximum input size processed (32 MiB). -/
def MAX_PNG_SIZE : Nat := 33554432

/-- ASCII bytes of the chunk tag `"pHYs"`. -/
def pHYsTag : List Nat := [112, 72, 89, 115]

/-- ASCII bytes of the chunk tag `"IDAT"`. -/
def idatTag : List Nat := [73, 68, 65, 84]

/-- ASCII bytes of the chunk tag `"IEND"`. -/
def iendTag : List Nat := [73, 69, 78, 68]

/-- `_png_read_u32_be`: big-endian 32-bit read of the first four bytes
(`(b[0]<<24) | (b[1]<<16) | (b[2]<<8) | b[3]`). -/
def _png_read_u32_be (b : List Nat) : Nat :=
  (((b.getD 0 0) <<< 24) ||| ((b.getD 1 0) <<< 16) ||| ((b.getD 2 0) <<< 8)) ||| (b.getD 3 0)

/-- `_png_write_u32_be`: big-endian 32-bit write; each `(uint8_t)` cast is `% 256`. -/
def _png_write_u32_be (v : Nat) : List Nat :=
  [(v >>> 24) % 256, (v >>> 16) % 256, (v >>> 8) % 256, v % 256]

/-- One bit-step of the CRC recurrence from `_png_crc_make_table`:
`c = (c & 1) ? (0xEDB88320 ^ (c >> 1)) : (c >> 1)`. -/
def _png_crc_step (c : Nat) : Nat :=
  if c &&& 1 = 1 then 0xEDB88320 ^^^ (c >>> 1) else c >>> 1

/-- Entry `n` of `_png_crc_table`: eight bit-steps applied to `n`. -/
def _png_crc_table (n : Nat) : Nat := _png_crc_step^[8] n

/-- `_png_crc32`: table-driven CRC-32 update over a byte span, with the
initial and final XOR by 0xFFFFFFFF of the source. -/
def _png_crc32 (buf : List Nat) (crc : Nat) : Nat :=
  (buf.foldl (fun c b => _png_crc_table ((c ^^^ b) &&& 255) ^^^ (c >>> 8))
    (crc ^^^ 0xFFFFFFFF)) ^^^ 0xFFFFFFFF

/-- Round a rational to the nearest integer, ties to even (the IEEE-754
default rounding of a value halfway between two representables). -/
def roundHalfEven (q : ℚ) : Int :=
  let n := ⌊q⌋
  if q - n < 1/2 then n
  else if 1/2 < q - n then n + 1
  else if n % 2 = 0 then n else n + 1

/-- The IEEE-754 binary64 rounding of a rational: for positive `x` in the
binade `[2^e, 2^(e+1))` with `e = Int.log 2 x`, round the significand
`x / 2^(e-52)` to an integer (nearest, ties to even) and scale back.  Exact
for every positive value in the normal range whose rounding does not
overflow — which covers all doubles arising in `_png_dpi_to_ppm`. -/
def roundDouble (x : ℚ) : ℚ :=
  if x ≤ 0 then 0
  else (roundHalfEven (x / 2 ^ (Int.log 2 x - 52)) : ℚ) * 2 ^ (Int.log 2 x - 52)

/-- The C `double` constant `factor = 39.37007874`: the literal is rounded
to the nearest binary64 value at compile time. -/
def pngFactor : ℚ := roundDouble (39.37007874 : ℚ)

/-- `_png_round_u32`: clamp below 1.0 and above 4294967295.0 (both bounds
and the comparisons are exact in binary64), otherwise truncate the `double`
sum `x + 0.5` (the argument is positive there, so the C cast is a floor of
the rounded sum). -/
def _png_round_u32 (x : ℚ) : Nat :=
  if x ≤ 1 then 1
  else if 4294967295 ≤ x then 4294967295
  else (⌊roundDouble (x + 1/2)⌋).toNat

/-- `_png_dpi_to_ppm`: DPI to pixels-per-meter via the `double` product
`dpi * factor` (the `int` converts to `double` exactly; the product is
rounded once), with non-positive DPI first replaced by 1. -/
def _png_dpi_to_ppm (dpi : Int) : Nat :=
  _png_round_u32 (roundDouble ((((if dpi ≤ 0 then 1 else dpi) : Int) : ℚ) * pngFactor))

/-- `_png_emit_pHYs_to_mem`, as the pure 21-byte chunk image it appends:
length (=9), type `"pHYs"`, payload (ppm twice big-endian, unit byte 1), and
the CRC chained over type then payload exactly as in the source. -/
def _png_emit_pHYs (ppm : Nat) : List Nat :=
  _png_write_u32_be 9 ++ pHYsTag ++
    (_png_write_u32_be ppm ++ _png_write_u32_be ppm ++ [1]) ++
    _png_write_u32_be
      (_png_crc32 (_png_write_u32_be ppm ++ _png_write_u32_be ppm ++ [1])
        (_png_crc32 pHYsTag 0))

/-- The chunk-rewriting `while` loop of `update_png_dpi`.  `rest` is the
input from the cursor on, `out` the output assembled so far, `wrote` the
`wrote_phys` flag.  The malformed-chunk guard compares against
`(len + 4) % 2^32` because the C expression `len + 4` is `uint32_t`
arithmetic.  The fuel argument only bounds the recursion; it is always
instantiated with at least `rest.length`, and each iteration consumes at
least 12 input bytes, so the fuel never runs out. -/
def pngPatchLoopF (cap ppm : Nat) : Nat → List Nat → List Nat → Bool → Except Nat (List Nat)
  | 0, _, out, _ => .ok out
  | fuel + 1, rest, out, wrote =>
    if rest.length < 12 then .ok out
    else
      let len := _png_read_u32_be (rest.take 4)
      let typ := (rest.drop 4).take 4
      let rest2 := rest.drop 8
      if rest2.length < (len + 4) % 4294967296 then .error 21
      else if typ = pHYsTag then
        pngPatchLoopF cap ppm fuel (rest2.drop (len + 4)) out wrote
      else
        let copy : List Nat → Bool → Except Nat (List Nat) := fun out1 wrote1 =>
          if out1.length + 12 + len > cap then .error 23
          else
            let out2 := out1 ++ rest.take (12 + len)
            if typ = iendTag then .ok out2
            else pngPatchLoopF cap ppm fuel (rest2.drop (len + 4)) out2 wrote1
        if wrote = false ∧ typ = idatTag then
          if out.length + 21 > cap then .error 22
          else copy (out ++ _png_emit_pHYs ppm) true
        else copy out wrote

/-- The loop at its natural fuel. -/
def pngPatchLoop (cap ppm : Nat) (rest out : List Nat) (wrote : Bool) : Except Nat (List Nat) :=
  pngPatchLoopF cap ppm rest.length rest out wrote

/-- Pure core of `update_png_dpi`: size check (code 4), signature check
(code 3), then the rebuild loop over `PNG_OUT_BUF` of capacity
`MAX_PNG_SIZE + 64`.  On success it returns the assembled output bytes. -/
def update_png_dpi (input : List Nat) (dpi : Int) : Except Nat (List Nat) :=
  if input.length > MAX_PNG_SIZE then .error 4
  else if input.length < 8 ∨ input.take 8 ≠ pngSig then .error 3
  else pngPatchLoop (MAX_PNG_SIZE + 64) (_png_dpi_to_ppm dpi) (input.drop 8) (input.take 8) false

/-- Same-path commit semantics: the pair (status, destination bytes after the
call).  Every validation error in the source returns before
`fopen(path, "wb")`, so the destination keeps its previous contents; on
success the destination holds the assembled output. -/
def update_png_dpi_file (contents : List Nat) (dpi : Int) : Nat × List Nat :=
  match update_png_dpi contents dpi with
  | .error e => (e, contents)
  | .ok out => (0, out)

/-- A chunk record as sliced by the scan: the four raw length bytes, the
4-byte type, the data span, and the stored trailer CRC bytes as read. -/
structure PngChunk where
  lenBytes : List Nat
  typ : List Nat
  data : List Nat
  crc : List Nat
deriving DecidableEq

/-- The exact bytes a chunk occupies in the stream. -/
def chunkBytes (c : PngChunk) : List Nat := c.lenBytes ++ c.typ ++ c.data ++ c.crc

/-- Concatenation of the byte images of a chunk list. -/
def serializeChunks (cs : List PngChunk) : List Nat :=
  cs.foldr (fun c acc => chunkBytes c ++ acc) []

/-- Modelled from the spec (§4.2 Chunk Scanner): walk the buffer after the
signature, slicing length/type/data/trailer per chunk; fail (`none`) when a
declared length plus the 4 trailer bytes overruns the buffer (exact
arithmetic, per the spec's `cursor + length + 4 <= buffer end`); stop after
an IEND chunk, and end non-fatally when fewer than the 12 header-plus-trailer
bytes remain (§4.4 step 3).  Fueled like the loop, at fuel ≥ `rest.length`. -/
def scanChunksF : Nat → List Nat → Option (List PngChunk)
  | 0, _ => some []
  | fuel + 1, rest =>
    if rest.length < 12 then some []
    else
      let len := _png_read_u32_be (rest.take 4)
      let typ := (rest.drop 4).take 4
      let rest2 := rest.drop 8
      if rest2.length < len + 4 then none
      else
        let c : PngChunk := ⟨rest.take 4, typ, rest2.take len, (rest2.drop len).take 4⟩
        if typ = iendTag then some [c]
        else (scanChunksF fuel (rest2.drop (len + 4))).map (c :: ·)

/-- The scan at its natural fuel. -/
def scanChunks (rest : List Nat) : Option (List PngChunk) :=
  scanChunksF rest.length rest

/-- The synthesized pHYs chunk at density `ppm`, as a chunk record. -/
def physChunk (ppm : Nat) : PngChunk :=
  ⟨_png_write_u32_be 9, pHYsTag,
   _png_write_u32_be ppm ++ _png_write_u32_be ppm ++ [1],
   _png_write_u32_be
     (_png_crc32 (_png_write_u32_be ppm ++ _png_write_u32_be ppm ++ [1])
       (_png_crc32 pHYsTag 0))⟩

/-- Modelled from the spec (§4.4 Patch Orchestrator), at chunk level: drop
every pHYs chunk; inject the synthesized pHYs immediately before the first
IDAT if none was injected yet; keep everything else in order. -/
def patchChunks (ppm : Nat) : Bool → List PngChunk → List PngChunk
  | _, [] => []
  | wrote, c :: cs =>
    if c.typ = pHYsTag then patchChunks ppm wrote cs
    else if wrote = false ∧ c.typ = idatTag then
      physChunk ppm :: c :: patchChunks ppm true cs
    else c :: patchChunks ppm wrote cs

/-- Well-formedness of a chunk record: 4-byte length/type/trailer fields, a
length field that decodes to the data length, and no 32-bit wraparound in
`length + 4`. -/
def wfChunk (c : PngChunk) : Prop :=
  c.lenBytes.length = 4 ∧ c.typ.length = 4 ∧ c.crc.length = 4 ∧
    _png_read_u32_be c.lenBytes = c.data.length ∧ c.data.length + 4 < 4294967296

/-- An IEND chunk appears only in the last position, if at all. -/
def iendOnlyLast : List PngChunk → Prop
  | [] => True
  | c :: cs => (c.typ = iendTag → cs = []) ∧ iendOnlyLast cs

/-- Modelled from the spec (§3 DensityValue): `round(D * 39.37007874)`
with a floor of 1 for non-positive `D`, clamped to the unsigned 32-bit
range. -/
def specDensityValue (D : Int) : Nat :=
  let d : Int := if D ≤ 0 then 1 else D
  (min (round ((d : ℚ) * (39.37007874 : ℚ))) 4294967295).toNat

/-- Modelled from the spec (§4.1 Checksum Engine): one bit-step of the
reference bit-at-a-time reflected CRC-32, polynomial 0xEDB88320. -/
def crcBitStep (c : Nat) : Nat :=
  if c % 2 = 1 then 0xEDB88320 ^^^ (c / 2) else c / 2

/-- Modelled from the spec (§4.1 Checksum Engine): the reference
bit-at-a-time reflected CRC-32, initial and final XOR 0xFFFFFFFF: XOR each
byte into the low bits and run eight bit-steps. -/
def crc32_ref (buf : List Nat) : Nat :=
  (buf.foldl (fun c b => crcBitStep^[8] (c ^^^ b)) 0xFFFFFFFF) ^^^ 0xFFFFFFFF

/-- A small complete PNG image: signature, one 1-byte IDAT, one IEND. -/
def exInput : List Nat :=
  pngSig ++ ([0, 0, 0, 1] ++ idatTag ++ [7] ++ [1, 2, 3, 4]) ++
    ([0, 0, 0, 0] ++ iendTag ++ [5, 6, 7, 8])

/-- The patched form of `exInput` at 300 DPI. -/
def exOutput : List Nat :=
  pngSig ++ _png_emit_pHYs (_png_dpi_to_ppm 300) ++
    ([0, 0, 0, 1] ++ idatTag ++ [7] ++ [1, 2, 3, 4]) ++
    ([0, 0, 0, 0] ++ iendTag ++ [5, 6, 7, 8])

/-- The chunk records of `exInput`. -/
def exChunks : List PngChunk :=
  [⟨[0, 0, 0, 1], idatTag, [7], [1, 2, 3, 4]⟩,
   ⟨[0, 0, 0, 0], iendTag, [], [5, 6, 7, 8]⟩]

/-- A chunk whose declared length 0xFFFFFFFF makes the 32-bit guard
`len + 4` wrap to 3: signature, length 0xFFFFFFFF, type `"pHYs"`, then four
bytes. -/
def wrapPhysInput : List Nat := pngSig ++ [255, 255, 255, 255] ++ pHYsTag ++ [0, 0, 0, 0]

/-- As `wrapPhysInput` but with a non-structural type `"AAAB"`. -/
def wrapCopyInput : List Nat := pngSig ++ [255, 255, 255, 255] ++ [65, 65, 65, 66] ++ [0, 0, 0, 0]

/-- Data length of the boundary-size input: `MAX_PNG_SIZE - 20`. -/
def bigLen : Nat := 33554412

/-- The IDAT chunk of the boundary-size input. -/
def bigChunk : PngChunk :=
  ⟨_png_write_u32_be bigLen, idatTag, List.replicate bigLen 0, [0, 0, 0, 0]⟩

/-- An input of size exactly `MAX_PNG_SIZE`: signature plus one maximal
IDAT chunk. -/
def bigInput : List Nat := pngSig ++ serializeChunks [bigChunk]

/-- The patched form of `bigInput` at 300 DPI; 21 bytes larger than
`MAX_PNG_SIZE`. -/
def bigOutput : List Nat :=
  pngSig ++ serializeChunks [physChunk (_png_dpi_to_ppm 300), bigChunk]

/-! ### Basic facts about the byte-level helpers -/

theorem _png_write_u32_be_length (v : Nat) : (_png_write_u32_be v).length = 4 := rfl

theorem _png_emit_pHYs_length (ppm : Nat) : (_png_emit_pHYs ppm).length = 21 := by
  simp [_png_emit_pHYs, _png_write_u32_be, pHYsTag]

theorem chunkBytes_physChunk (ppm : Nat) : chunkBytes (physChunk ppm) = _png_emit_pHYs ppm := rfl

theorem serializeChunks_nil : serializeChunks [] = [] := rfl

theorem serializeChunks_cons (c : PngChunk) (cs : List PngChunk) :
    serializeChunks (c :: cs) = chunkBytes c ++ serializeChunks cs := rfl

theorem chunkBytes_length {c : PngChunk} (h : wfChunk c) :
    (chunkBytes c).length = 12 + c.data.length := by
  obtain ⟨h1, h2, h3, _, _⟩ := h
  simp [chunkBytes, h1, h2, h3]
  omega

theorem wfChunk_physChunk (ppm : Nat) : wfChunk (physChunk ppm) := by
  have h9 : (_png_write_u32_be ppm ++ _png_write_u32_be ppm ++ [1]).length = 9 := by
    simp [_png_write_u32_be]
  refine ⟨rfl, rfl, rfl, ?_, ?_⟩
  · simp only [physChunk]
    rw [h9]
    decide
  · simp only [physChunk]
    rw [h9]
    decide

/-- Slicing identity: the 12 + len bytes copied verbatim decompose into the
four spans read by the scan. -/
theorem take_chunk_split (rest : List Nat) (len : Nat) :
    rest.take (12 + len) =
      rest.take 4 ++ ((rest.drop 4).take 4 ++
        ((rest.drop 8).take len ++ ((rest.drop 8).drop len).take 4)) := by
  have h1 : 12 + len = 4 + (4 + (len + 4)) := by omega
  rw [h1, List.take_add, List.take_add, List.take_add]
  simp [List.drop_drop]

/-! ### The density value (`_png_dpi_to_ppm`) -/

theorem int_log2_eq {x : ℚ} {e : ℤ} (h0 : 0 < x)
    (h1 : (2:ℚ) ^ e ≤ x) (h2 : x < (2:ℚ) ^ (e + 1)) : Int.log 2 x = e := by
  have hb : 1 < (2:ℕ) := by norm_num
  have hc : ((2:ℕ) : ℚ) = (2:ℚ) := by norm_num
  have hle : e ≤ Int.log 2 x := by
    rw [← Int.zpow_le_iff_le_log hb h0, hc]; exact h1
  have hlt : Int.log 2 x < e + 1 := by
    rw [← Int.lt_zpow_iff_log_lt hb h0, hc]; exact h2
  omega

theorem roundHalfEven_eq_of {q : ℚ} {m : ℤ}
    (hm : (m:ℚ) ≤ q) (hm2 : q < (m:ℚ) + 1/2) : roundHalfEven q = m := by
  have hfl : ⌊q⌋ = m := by
    rw [Int.floor_eq_iff]
    refine ⟨hm, ?_⟩
    linarith
  unfold roundHalfEven
  rw [hfl, if_pos (by linarith)]

/-- When the significand of positive `x` (binade exponent `e`) lies in
`[m, m + 1/2)`, the binary64 rounding of `x` is `m · 2^(e-52)`. -/
theorem roundDouble_eq {x : ℚ} {e m : ℤ}
    (h1 : (2:ℚ) ^ e ≤ x) (h2 : x < (2:ℚ) ^ (e + 1))
    (hm : (m:ℚ) ≤ x / 2 ^ (e - 52)) (hm2 : x / 2 ^ (e - 52) < (m:ℚ) + 1/2) :
    roundDouble x = (m:ℚ) * 2 ^ (e - 52) := by
  have hpe : (0:ℚ) < (2:ℚ) ^ e := by positivity
  have h0 : 0 < x := lt_of_lt_of_le hpe h1
  unfold roundDouble
  rw [if_neg (not_le.mpr h0), int_log2_eq h0 h1 h2, roundHalfEven_eq_of hm hm2]

/-- The nearest binary64 value to the literal 39.37007874 (binade `[32, 64)`,
53-bit significand 5540845998219096; the exact significand has fractional
part below 1/2, so rounding is downward). -/
theorem pngFactor_eq : pngFactor = (5540845998219096 : ℚ) * 2 ^ ((5:ℤ) - 52) := by
  unfold pngFactor
  apply roundDouble_eq <;> norm_num

theorem ppm_300 : _png_dpi_to_ppm 300 = 11811 := by
  unfold _png_dpi_to_ppm _png_round_u32
  rw [if_neg (by norm_num : ¬ (300:ℤ) ≤ 0)]
  rw [pngFactor_eq]
  rw [show (((300:ℤ)):ℚ) = (300:ℚ) from by norm_num]
  rw [show roundDouble ((300:ℚ) * ((5540845998219096 : ℚ) * 2 ^ ((5:ℤ) - 52)))
        = (6493178904163003 : ℚ) * 2 ^ ((13:ℤ) - 52) from
      roundDouble_eq (by norm_num) (by norm_num) (by norm_num) (by norm_num)]
  rw [if_neg (by norm_num), if_neg (by norm_num)]
  rw [show roundDouble ((6493178904163003 : ℚ) * 2 ^ ((13:ℤ) - 52) + 1/2)
        = (6493453782069947 : ℚ) * 2 ^ ((13:ℤ) - 52) from
      roundDouble_eq (by norm_num) (by norm_num) (by norm_num) (by norm_num)]
  norm_num
  rfl

theorem ppm_600 : _png_dpi_to_ppm 600 = 23622 := by
  unfold _png_dpi_to_ppm _png_round_u32
  rw [if_neg (by norm_num : ¬ (600:ℤ) ≤ 0)]
  rw [pngFactor_eq]
  rw [show (((600:ℤ)):ℚ) = (600:ℚ) from by norm_num]
  rw [show roundDouble ((600:ℚ) * ((5540845998219096 : ℚ) * 2 ^ ((5:ℤ) - 52)))
        = (6493178904163003 : ℚ) * 2 ^ ((14:ℤ) - 52) from
      roundDouble_eq (by norm_num) (by norm_num) (by norm_num) (by norm_num)]
  rw [if_neg (by norm_num), if_neg (by norm_num)]
  rw [show roundDouble ((6493178904163003 : ℚ) * 2 ^ ((14:ℤ) - 52) + 1/2)
        = (6493316343116475 : ℚ) * 2 ^ ((14:ℤ) - 52) from
      roundDouble_eq (by norm_num) (by norm_num) (by norm_num) (by norm_num)]
  norm_num
  rfl

theorem ppm_1200 : _png_dpi_to_ppm 1200 = 47244 := by
  unfold _png_dpi_to_ppm _png_round_u32
  rw [if_neg (by norm_num : ¬ (1200:ℤ) ≤ 0)]
  rw [pngFactor_eq]
  rw [show (((1200:ℤ)):ℚ) = (1200:ℚ) from by norm_num]
  rw [show roundDouble ((1200:ℚ) * ((5540845998219096 : ℚ) * 2 ^ ((5:ℤ) - 52)))
        = (6493178904163003 : ℚ) * 2 ^ ((15:ℤ) - 52) from
      roundDouble_eq (by norm_num) (by norm_num) (by norm_num) (by norm_num)]
  rw [if_neg (by norm_num), if_neg (by norm_num)]
  rw [show roundDouble ((6493178904163003 : ℚ) * 2 ^ ((15:ℤ) - 52) + 1/2)
        = (6493247623639739 : ℚ) * 2 ^ ((15:ℤ) - 52) from
      roundDouble_eq (by norm_num) (by norm_num) (by norm_num) (by norm_num)]
  norm_num
  rfl

theorem ppm_nonpos (dpi : Int) (h : dpi ≤ 0) : _png_dpi_to_ppm dpi = 39 := by
  unfold _png_dpi_to_ppm _png_round_u32
  rw [if_pos h]
  rw [pngFactor_eq]
  rw [show (((1:ℤ)):ℚ) = (1:ℚ) from by norm_num, one_mul]
  rw [show roundDouble ((5540845998219096 : ℚ) * 2 ^ ((5:ℤ) - 52))
        = (5540845998219096 : ℚ) * 2 ^ ((5:ℤ) - 52) from
      roundDouble_eq (by norm_num) (by norm_num) (by norm_num) (by norm_num)]
  rw [if_neg (by norm_num), if_neg (by norm_num)]
  rw [show roundDouble ((5540845998219096 : ℚ) * 2 ^ ((5:ℤ) - 52) + 1/2)
        = (5611214742396760 : ℚ) * 2 ^ ((5:ℤ) - 52) from
      roundDouble_eq (by norm_num) (by norm_num) (by norm_num) (by norm_num)]
  norm_num
  rfl

theorem ppm_24999873 : _png_dpi_to_ppm 24999873 = 984246968 := by
  unfold _png_dpi_to_ppm _png_round_u32
  rw [if_neg (by norm_num : ¬ (24999873:ℤ) ≤ 0)]
  rw [pngFactor_eq]
  rw [show (((24999873:ℤ)):ℚ) = (24999873:ℚ) from by norm_num]
  rw [show roundDouble ((24999873:ℚ) * ((5540845998219096 : ℚ) * 2 ^ ((5:ℤ) - 52)))
        = (8256461993934847 : ℚ) * 2 ^ ((29:ℤ) - 52) from
      roundDouble_eq (by norm_num) (by norm_num) (by norm_num) (by norm_num)]
  rw [if_neg (by norm_num), if_neg (by norm_num)]
  rw [show roundDouble ((8256461993934847 : ℚ) * 2 ^ ((29:ℤ) - 52) + 1/2)
        = (8256461998129151 : ℚ) * 2 ^ ((29:ℤ) - 52) from
      roundDouble_eq (by norm_num) (by norm_num) (by norm_num) (by norm_num)]
  norm_num
  rfl

theorem specDensity_300 : specDensityValue 300 = 11811 := by
  unfold specDensityValue
  norm_num [round_eq]
  rfl

theorem specDensity_600 : specDensityValue 600 = 23622 := by
  unfold specDensityValue
  norm_num [round_eq]
  rfl

theorem specDensity_1200 : specDensityValue 1200 = 47244 := by
  unfold specDensityValue
  norm_num [round_eq]
  rfl

theorem specDensity_nonpos (D : Int) (h : D ≤ 0) : specDensityValue D = 39 := by
  unfold specDensityValue
  rw [if_pos h]
  norm_num [round_eq]
  rfl

theorem specDensity_24999873 : specDensityValue 24999873 = 984246969 := by
  unfold specDensityValue
  norm_num [round_eq]
  rfl

/-- Claim C2, counterexample: at D = 24999873 the program's `double`
pipeline stores 984246968, but the exact product D · 39.37007874 =
984246968.50000002 rounds (to nearest, no tie) to 984246969, so the claimed
identity `stored = round(D · 39.37007874)` fails.  The nearest double to the
product D · factor is 8256461993934847 · 2⁻²³ ≈ 984246968.4999999, whose
fractional part is below 1/2, so adding 0.5 and truncating floors down. -/
theorem dpi_to_ppm_diverges_from_round :
    _png_dpi_to_ppm 24999873 = 984246968 ∧ specDensityValue 24999873 = 984246969 :=
  ⟨ppm_24999873, specDensity_24999873⟩

/-- Claim C2, amended: the concrete instances hold — the program stores
11811, 23622, 47244 for DPI 300, 600, 1200 and 39 for every D ≤ 0, and each
agrees with the spec's exact formula round(D · 39.37007874) (clamped, with
non-positive D replaced by 1) at those inputs; but the general identity for
every integer D fails (see the counterexample), because the `double`
rounding error can cross a half-integer boundary. -/
theorem dpi_to_ppm_concrete_values :
    _png_dpi_to_ppm 300 = 11811 ∧ _png_dpi_to_ppm 600 = 23622 ∧
    _png_dpi_to_ppm 1200 = 47244 ∧ (∀ D : Int, D ≤ 0 → _png_dpi_to_ppm D = 39) ∧
    specDensityValue 300 = 11811 ∧ specDensityValue 600 = 23622 ∧
    specDensityValue 1200 = 47244 ∧ ∀ D : Int, D ≤ 0 → specDensityValue D = 39 :=
  ⟨ppm_300, ppm_600, ppm_1200, ppm_nonpos,
   specDensity_300, specDensity_600, specDensity_1200, specDensity_nonpos⟩

/-- Witness for the amended C2 at the concrete non-positive input −5. -/
theorem dpi_to_ppm_concrete_values_witness :
    _png_dpi_to_ppm (-5) = 39 ∧ specDensityValue (-5) = 39 :=
  ⟨dpi_to_ppm_concrete_values.2.2.2.1 (-5) (by norm_num),
   dpi_to_ppm_concrete_values.2.2.2.2.2.2.2 (-5) (by norm_num)⟩

/-! ### The chunk encoder (`_png_emit_pHYs`) -/

theorem crc_chain (l1 l2 : List Nat) :
    _png_crc32 l2 (_png_crc32 l1 0) = _png_crc32 (l1 ++ l2) 0 := by
  rw [_png_crc32, _png_crc32, _png_crc32, List.foldl_append]
  congr 2
  rw [Nat.xor_assoc, Nat.xor_self, Nat.xor_zero]

/-- Claim C7: for every DPI the encoder emits exactly 21 bytes — a 4-byte
big-endian length decoding to 9, the type `"pHYs"`, the 9-byte payload with
the pixels-per-meter value twice (X = Y) and unit byte 1, and a CRC-32
computed over type plus payload; it is a pure function of its input. -/
theorem emit_phys_layout (dpi : Int) :
    (_png_emit_pHYs (_png_dpi_to_ppm dpi)).length = 21 ∧
    _png_emit_pHYs (_png_dpi_to_ppm dpi) =
      _png_write_u32_be 9 ++ pHYsTag ++
        (_png_write_u32_be (_png_dpi_to_ppm dpi) ++
          _png_write_u32_be (_png_dpi_to_ppm dpi) ++ [1]) ++
        _png_write_u32_be
          (_png_crc32 (pHYsTag ++
            (_png_write_u32_be (_png_dpi_to_ppm dpi) ++
              _png_write_u32_be (_png_dpi_to_ppm dpi) ++ [1])) 0) ∧
    _png_read_u32_be (_png_write_u32_be 9) = 9 := by
  refine ⟨_png_emit_pHYs_length _, ?_, by decide⟩
  rw [_png_emit_pHYs, crc_chain]

/-- Witness for C7 at DPI 300. -/
theorem emit_phys_layout_witness :
    (_png_emit_pHYs (_png_dpi_to_ppm 300)).length = 21 ∧
    _png_emit_pHYs (_png_dpi_to_ppm 300) =
      _png_write_u32_be 9 ++ pHYsTag ++
        (_png_write_u32_be (_png_dpi_to_ppm 300) ++
          _png_write_u32_be (_png_dpi_to_ppm 300) ++ [1]) ++
        _png_write_u32_be
          (_png_crc32 (pHYsTag ++
            (_png_write_u32_be (_png_dpi_to_ppm 300) ++
              _png_write_u32_be (_png_dpi_to_ppm 300) ++ [1])) 0) ∧
    _png_read_u32_be (_png_write_u32_be 9) = 9 :=
  emit_phys_layout 300

/-! ### CRC-32: the table-driven update equals the bit-at-a-time reference -/

theorem crc_step_eq_bitStep : _png_crc_step = crcBitStep := by
  funext c
  rw [_png_crc_step, crcBitStep, Nat.and_one_is_mod]
  simp only [Nat.shiftRight_eq_div_pow, pow_one]

theorem shiftRight_xor_distrib (a b n : Nat) :
    (a ^^^ b) >>> n = (a >>> n) ^^^ (b >>> n) :=
  Nat.eq_of_testBit_eq fun i => by
    simp [Nat.testBit_shiftRight, Nat.testBit_xor]

theorem xor_mod_two (a b : Nat) : (a ^^^ b) % 2 = (a % 2) ^^^ (b % 2) := by
  have h := Nat.and_xor_distrib_right (a := a) (b := b) (c := 1)
  simpa [Nat.and_one_is_mod] using h

theorem xor_two_mul (a b : Nat) : (2 * a) ^^^ (2 * b) = 2 * (a ^^^ b) := by
  have h1 : ((2 * a) ^^^ (2 * b)) % 2 = 0 := by
    rw [xor_mod_two]
    simp [Nat.mul_mod_right]
  have h2 : ((2 * a) ^^^ (2 * b)) / 2 = a ^^^ b := by
    have h := shiftRight_xor_distrib (2 * a) (2 * b) 1
    simp only [Nat.shiftRight_eq_div_pow, pow_one] at h
    rw [h, Nat.mul_div_cancel_left a (by norm_num), Nat.mul_div_cancel_left b (by norm_num)]
  omega

theorem xor_two_mul_add_one (a b : Nat) :
    (2 * a + 1) ^^^ (2 * b) = 2 * (a ^^^ b) + 1 := by
  have h1 : ((2 * a + 1) ^^^ (2 * b)) % 2 = 1 := by
    rw [xor_mod_two]
    have ha : (2 * a + 1) % 2 = 1 := by omega
    have hb : (2 * b) % 2 = 0 := by omega
    rw [ha, hb]
    decide
  have h2 : ((2 * a + 1) ^^^ (2 * b)) / 2 = a ^^^ b := by
    have h := shiftRight_xor_distrib (2 * a + 1) (2 * b) 1
    simp only [Nat.shiftRight_eq_div_pow, pow_one] at h
    have ha : (2 * a + 1) / 2 = a := by omega
    have hb : (2 * b) / 2 = b := by omega
    rw [h, ha, hb]
  omega

/-- XOR with a multiple of `2^k` is addition below `2^k`. -/
theorem xor_low_high : ∀ (k a b : Nat), a < 2 ^ k → a ^^^ 2 ^ k * b = a + 2 ^ k * b := by
  intro k
  induction k with
  | zero =>
    intro a b ha
    have h0 : a = 0 := by omega
    subst h0
    simp
  | succ k ih =>
    intro a b ha
    have h2k : 2 ^ (k + 1) = 2 * 2 ^ k := by ring
    have hlt : a / 2 < 2 ^ k := by omega
    have hb : 2 ^ (k + 1) * b = 2 * (2 ^ k * b) := by ring
    have key := ih (a / 2) b hlt
    rcases Nat.mod_two_eq_zero_or_one a with h | h
    · have ha2 : a = 2 * (a / 2) := by omega
      rw [hb, ha2, xor_two_mul, key]
      omega
    · have ha2 : a = 2 * (a / 2) + 1 := by omega
      rw [hb, ha2, xor_two_mul_add_one, key]
      omega

theorem crc_step_xor_high (x m : Nat) :
    _png_crc_step (x ^^^ 2 * m) = _png_crc_step x ^^^ m := by
  have hpar : (x ^^^ 2 * m) &&& 1 = x &&& 1 := by
    rw [Nat.and_xor_distrib_right]
    simp [Nat.and_one_is_mod, Nat.mul_mod_right]
  have hshift : (x ^^^ 2 * m) >>> 1 = (x >>> 1) ^^^ m := by
    rw [shiftRight_xor_distrib]
    congr 1
    simp only [Nat.shiftRight_eq_div_pow, pow_one]
    omega
  rw [_png_crc_step, _png_crc_step, hpar, hshift]
  by_cases h : x &&& 1 = 1
  · rw [if_pos h, if_pos h, Nat.xor_assoc]
  · rw [if_neg h, if_neg h]

theorem crc_step_iterate_shift : ∀ (k x m : Nat),
    _png_crc_step^[k] (x ^^^ 2 ^ k * m) = _png_crc_step^[k] x ^^^ m := by
  intro k
  induction k with
  | zero => intro x m; simp
  | succ k ih =>
    intro x m
    have h1 : 2 ^ (k + 1) * m = 2 * (2 ^ k * m) := by ring
    rw [h1, Function.iterate_succ_apply, Function.iterate_succ_apply,
      crc_step_xor_high, ih]

theorem crc_step8_split (x : Nat) :
    _png_crc_step^[8] x = _png_crc_step^[8] (x % 256) ^^^ x / 256 := by
  have h28 : (2 : Nat) ^ 8 = 256 := by norm_num
  have hm : x % 256 < 2 ^ 8 := by omega
  have hx : x % 256 ^^^ 2 ^ 8 * (x / 256) = x % 256 + 2 ^ 8 * (x / 256) :=
    xor_low_high 8 (x % 256) (x / 256) hm
  have hfull : x % 256 + 2 ^ 8 * (x / 256) = x := by omega
  calc _png_crc_step^[8] x
      = _png_crc_step^[8] (x % 256 ^^^ 2 ^ 8 * (x / 256)) := by rw [hx, hfull]
    _ = _png_crc_step^[8] (x % 256) ^^^ x / 256 := crc_step_iterate_shift 8 _ _

theorem crc_update_table_eq (c b : Nat) (hb : b < 256) :
    _png_crc_table ((c ^^^ b) &&& 255) ^^^ (c >>> 8) = _png_crc_step^[8] (c ^^^ b) := by
  have h255 : (c ^^^ b) &&& 255 = (c ^^^ b) % 256 := by
    have h := Nat.and_pow_two_sub_one_eq_mod (c ^^^ b) 8
    norm_num at h
    exact h
  have hdiv : (c ^^^ b) / 256 = c / 256 := by
    have h := shiftRight_xor_distrib c b 8
    simp only [Nat.shiftRight_eq_div_pow] at h
    norm_num at h
    rw [h, Nat.div_eq_of_lt hb, Nat.xor_zero]
  rw [_png_crc_table, h255, crc_step8_split (c ^^^ b), hdiv,
    Nat.shiftRight_eq_div_pow]

theorem crc32_fold_eq (buf : List Nat) : ∀ acc, (∀ b ∈ buf, b < 256) →
    buf.foldl (fun c b => _png_crc_table ((c ^^^ b) &&& 255) ^^^ (c >>> 8)) acc =
      buf.foldl (fun c b => _png_crc_step^[8] (c ^^^ b)) acc := by
  induction buf with
  | nil => intro acc _; rfl
  | cons x xs ih =>
    intro acc hb
    simp only [List.foldl_cons]
    rw [crc_update_table_eq acc x (hb x (by simp))]
    exact ih _ fun b hbm => hb b (by simp [hbm])

/-- Claim C9: on every byte sequence the table-driven `_png_crc32` computes
the standard reflected CRC-32 — it equals the bit-at-a-time reference with
polynomial 0xEDB88320 and initial/final XOR 0xFFFFFFFF. -/
theorem crc32_table_matches_reference (buf : List Nat) (hb : ∀ b ∈ buf, b < 256) :
    _png_crc32 buf 0 = crc32_ref buf := by
  rw [_png_crc32, crc32_ref, ← crc_step_eq_bitStep, Nat.zero_xor,
    crc32_fold_eq buf _ hb]

/-- Witness for C9 on the concrete byte span `"pHYs"`. -/
theorem crc32_table_matches_reference_witness :
    _png_crc32 pHYsTag 0 = crc32_ref pHYsTag :=
  crc32_table_matches_reference pHYsTag (by decide)

/-! ### Structural facts about the scan -/

theorem scanChunksF_short (fuel : Nat) (rest : List Nat) (h : rest.length < 12) :
    scanChunksF fuel rest = some [] := by
  cases fuel with
  | zero => rfl
  | succ n => simp only [scanChunksF, if_pos h]

theorem iendOnlyLast_nil : iendOnlyLast [] := trivial

theorem iendOnlyLast_cons (c : PngChunk) (cs : List PngChunk) :
    iendOnlyLast (c :: cs) ↔ (c.typ = iendTag → cs = []) ∧ iendOnlyLast cs := Iff.rfl

/-- Chunks produced by a successful scan are well-formed, IEND only closes
the list, and their serialized size never exceeds the scanned span. -/
theorem scanF_facts : ∀ (fuel : Nat) (rest : List Nat) (cs : List PngChunk),
    rest.length ≤ fuel → rest.length < 4294967296 →
    scanChunksF fuel rest = some cs →
    (∀ c ∈ cs, wfChunk c) ∧ iendOnlyLast cs ∧
      (serializeChunks cs).length ≤ rest.length := by
  intro fuel
  induction fuel with
  | zero =>
    intro rest cs hf h32 hscan
    have h0 : rest.length < 12 := by omega
    rw [scanChunksF_short 0 rest h0] at hscan
    obtain rfl : ([] : List PngChunk) = cs := Option.some.inj hscan
    exact ⟨by simp, trivial, by simp [serializeChunks]⟩
  | succ fuel ih =>
    intro rest cs hf h32 hscan
    by_cases h12 : rest.length < 12
    · rw [scanChunksF_short _ rest h12] at hscan
      obtain rfl : ([] : List PngChunk) = cs := Option.some.inj hscan
      exact ⟨by simp, trivial, by simp [serializeChunks]⟩
    · simp only [scanChunksF, if_neg h12] at hscan
      push_neg at h12
      set len := _png_read_u32_be (rest.take 4) with hlen
      set typ := (rest.drop 4).take 4 with htyp
      set rest2 := rest.drop 8 with hrest2
      have hr2len : rest2.length = rest.length - 8 := by
        rw [hrest2]; simp
      by_cases hover : rest2.length < len + 4
      · rw [if_pos hover] at hscan
        exact absurd hscan (by simp)
      · rw [if_neg hover] at hscan
        push_neg at hover
        set c0 : PngChunk := ⟨rest.take 4, typ, rest2.take len, (rest2.drop len).take 4⟩
          with hc0
        have hwf0 : wfChunk c0 := by
          refine ⟨?_, ?_, ?_, ?_, ?_⟩
          · rw [hc0]; simp; omega
          · rw [hc0, htyp]; simp; omega
          · rw [hc0]; simp; omega
          · show _png_read_u32_be (rest.take 4) = (rest2.take len).length
            rw [← hlen]; simp; omega
          · show (rest2.take len).length + 4 < 4294967296
            simp; omega
        have hsz0 : (chunkBytes c0).length = 12 + len := by
          rw [chunkBytes_length hwf0, hc0]
          simp
          omega
        by_cases hiend : typ = iendTag
        · rw [if_pos hiend] at hscan
          obtain rfl : [c0] = cs := Option.some.inj hscan
          refine ⟨?_, ?_, ?_⟩
          · intro c hc
            simp at hc
            subst hc
            exact hwf0
          · exact ⟨fun _ => rfl, trivial⟩
          · rw [serializeChunks_cons, serializeChunks_nil]
            simp [hsz0]
            omega
        · rw [if_neg hiend] at hscan
          rw [Option.map_eq_some'] at hscan
          obtain ⟨cs', hscan', rfl⟩ := hscan
          have hr3 : (rest2.drop (len + 4)).length = rest.length - 8 - (len + 4) := by
            simp [hr2len]
          have hrec := ih (rest2.drop (len + 4)) cs' (by omega) (by omega) hscan'
          refine ⟨?_, ?_, ?_⟩
          · intro c hc
            rcases List.mem_cons.mp hc with rfl | hc'
            · exact hwf0
            · exact hrec.1 c hc'
          · exact ⟨fun h => absurd h (by rw [hc0]; exact hiend), hrec.2.1⟩
          · rw [serializeChunks_cons]
            simp only [List.length_append, hsz0]
            have := hrec.2.2
            omega

/-- Scanning the serialization of well-formed chunks (IEND only last)
recovers exactly those chunks. -/
theorem scanF_serialize : ∀ (cs : List PngChunk) (fuel : Nat),
    (serializeChunks cs).length ≤ fuel →
    (∀ c ∈ cs, wfChunk c) → iendOnlyLast cs →
    scanChunksF fuel (serializeChunks cs) = some cs := by
  intro cs
  induction cs with
  | nil =>
    intro fuel _ _ _
    exact scanChunksF_short fuel _ (by rw [serializeChunks_nil]; simp)
  | cons c cs ih =>
    intro fuel hfuel hwf hiend
    obtain ⟨hiend1, hiend2⟩ := (iendOnlyLast_cons c cs).mp hiend
    have hwfc : wfChunk c := hwf c (by simp)
    obtain ⟨hl4, ht4, hc4, hread, hlt⟩ := hwfc
    have hE : serializeChunks (c :: cs) =
        c.lenBytes ++ (c.typ ++ (c.data ++ (c.crc ++ serializeChunks cs))) := by
      rw [serializeChunks_cons, chunkBytes]
      simp [List.append_assoc]
    have hLen : (serializeChunks (c :: cs)).length =
        12 + c.data.length + (serializeChunks cs).length := by
      rw [serializeChunks_cons, List.length_append,
        chunkBytes_length ⟨hl4, ht4, hc4, hread, hlt⟩]
    rw [hLen] at hfuel
    have h12 : ¬ (serializeChunks (c :: cs)).length < 12 := by rw [hLen]; omega
    obtain ⟨f, rfl⟩ : ∃ f, fuel = f + 1 := ⟨fuel - 1, by omega⟩
    simp only [scanChunksF, if_neg h12]
    have htake4 : (serializeChunks (c :: cs)).take 4 = c.lenBytes := by
      rw [hE]; exact List.take_left' hl4
    have hdrop4 : (serializeChunks (c :: cs)).drop 4 =
        c.typ ++ (c.data ++ (c.crc ++ serializeChunks cs)) := by
      rw [hE]; exact List.drop_left' hl4
    have htyp : ((serializeChunks (c :: cs)).drop 4).take 4 = c.typ := by
      rw [hdrop4]; exact List.take_left' ht4
    have hdrop8 : (serializeChunks (c :: cs)).drop 8 =
        c.data ++ (c.crc ++ serializeChunks cs) := by
      rw [show (8 : Nat) = 4 + 4 from rfl, ← List.drop_drop, hdrop4]
      exact List.drop_left' ht4
    rw [htake4, hread, htyp, hdrop8]
    have hr2 : (c.data ++ (c.crc ++ serializeChunks cs)).length =
        c.data.length + 4 + (serializeChunks cs).length := by
      simp [hc4]
      omega
    rw [if_neg (by omega)]
    have hdata : (c.data ++ (c.crc ++ serializeChunks cs)).take c.data.length = c.data :=
      List.take_left' rfl
    have hcrc : ((c.data ++ (c.crc ++ serializeChunks cs)).drop c.data.length).take 4 =
        c.crc := by
      rw [List.drop_left' rfl]; exact List.take_left' hc4
    rw [hdata, hcrc]
    by_cases hie : c.typ = iendTag
    · rw [if_pos hie]
      have hcs : cs = [] := hiend1 hie
      subst hcs
      rfl
    · rw [if_neg hie]
      have hrest3 : (c.data ++ (c.crc ++ serializeChunks cs)).drop (c.data.length + 4) =
          serializeChunks cs := by
        rw [← List.drop_drop, List.drop_left' rfl]
        exact List.drop_left' hc4
      rw [hrest3, ih f (by omega) (fun d hd => hwf d (by simp [hd])) hiend2]
      rfl

/-! ### Structural facts about the chunk-level patch policy -/

theorem patchChunks_wf (ppm : Nat) : ∀ (cs : List PngChunk) (w : Bool),
    (∀ c ∈ cs, wfChunk c) → ∀ c ∈ patchChunks ppm w cs, wfChunk c := by
  intro cs
  induction cs with
  | nil =>
    intro w _ c hc
    simp [patchChunks] at hc
  | cons a cs ih =>
    intro w h c hc
    simp only [patchChunks] at hc
    by_cases hp : a.typ = pHYsTag
    · rw [if_pos hp] at hc
      exact ih w (fun d hd => h d (by simp [hd])) c hc
    · rw [if_neg hp] at hc
      by_cases hi : w = false ∧ a.typ = idatTag
      · rw [if_pos hi] at hc
        rcases List.mem_cons.mp hc with rfl | hc'
        · exact wfChunk_physChunk ppm
        · rcases List.mem_cons.mp hc' with rfl | hc''
          · exact h c (by simp)
          · exact ih true (fun d hd => h d (by simp [hd])) c hc''
      · rw [if_neg hi] at hc
        rcases List.mem_cons.mp hc with rfl | hc'
        · exact h c (by simp)
        · exact ih w (fun d hd => h d (by simp [hd])) c hc'

theorem patchChunks_iendOnlyLast (ppm : Nat) : ∀ (cs : List PngChunk) (w : Bool),
    iendOnlyLast cs → iendOnlyLast (patchChunks ppm w cs) := by
  intro cs
  induction cs with
  | nil => intro w _; exact trivial
  | cons a cs ih =>
    intro w h
    obtain ⟨h1, h2⟩ := (iendOnlyLast_cons a cs).mp h
    simp only [patchChunks]
    by_cases hp : a.typ = pHYsTag
    · rw [if_pos hp]; exact ih w h2
    · rw [if_neg hp]
      by_cases hi : w = false ∧ a.typ = idatTag
      · rw [if_pos hi]
        refine (iendOnlyLast_cons _ _).mpr ⟨?_, (iendOnlyLast_cons _ _).mpr
          ⟨?_, ih true h2⟩⟩
        · intro hphys
          simp [physChunk, pHYsTag, iendTag] at hphys
        · intro hai
          exact absurd hai (by rw [hi.2]; decide)
      · rw [if_neg hi]
        refine (iendOnlyLast_cons _ _).mpr ⟨?_, ih w h2⟩
        intro hai
        rw [h1 hai]
        rfl

theorem patchChunks_size (ppm : Nat) : ∀ (cs : List PngChunk) (w : Bool),
    (serializeChunks (patchChunks ppm w cs)).length ≤
      (cond w 0 21) + (serializeChunks cs).length := by
  intro cs
  induction cs with
  | nil =>
    intro w
    simp [patchChunks, serializeChunks_nil]
  | cons a cs ih =>
    intro w
    simp only [patchChunks]
    by_cases hp : a.typ = pHYsTag
    · rw [if_pos hp, serializeChunks_cons]
      have h := ih w
      simp only [List.length_append]
      omega
    · rw [if_neg hp]
      by_cases hi : w = false ∧ a.typ = idatTag
      · rw [if_pos hi, hi.1]
        have h21 : (chunkBytes (physChunk ppm)).length = 21 := by
          rw [chunkBytes_physChunk]; exact _png_emit_pHYs_length ppm
        have h := ih true
        simp only [serializeChunks_cons, List.length_append, h21, cond_true, cond_false] at *
        omega
      · rw [if_neg hi, serializeChunks_cons, serializeChunks_cons]
        have h := ih w
        simp only [List.length_append]
        omega

theorem patchChunks_count_true (ppm : Nat) : ∀ cs : List PngChunk,
    (patchChunks ppm true cs).countP (fun c => decide (c.typ = pHYsTag)) = 0 := by
  intro cs
  induction cs with
  | nil => rfl
  | cons a cs ih =>
    simp only [patchChunks]
    by_cases hp : a.typ = pHYsTag
    · rw [if_pos hp]; exact ih
    · rw [if_neg hp, if_neg (by simp)]
      rw [List.countP_cons_of_neg _ _ (by simp [hp])]
      exact ih

theorem patchChunks_count_one (ppm : Nat) : ∀ cs : List PngChunk,
    cs.any (fun c => decide (c.typ = idatTag)) = true →
    (patchChunks ppm false cs).countP (fun c => decide (c.typ = pHYsTag)) = 1 := by
  intro cs
  induction cs with
  | nil => intro h; simp at h
  | cons a cs ih =>
    intro hany
    simp only [patchChunks, true_and]
    by_cases hp : a.typ = pHYsTag
    · rw [if_pos hp]
      apply ih
      have hna : (fun c => decide (c.typ = idatTag)) a = false := by
        simp [hp]
        decide
      simpa [hna] using hany
    · rw [if_neg hp]
      by_cases hi : a.typ = idatTag
      · rw [if_pos hi]
        rw [List.countP_cons_of_pos _ _ (by simp [physChunk]),
          List.countP_cons_of_neg _ _ (by simp [hi]; decide),
          patchChunks_count_true]
      · rw [if_neg hi]
        rw [List.countP_cons_of_neg _ _ (by simp [hp])]
        apply ih
        simpa [hi] using hany

theorem patchChunks_firstIdx (ppm : Nat) : ∀ cs : List PngChunk,
    cs.any (fun c => decide (c.typ = idatTag)) = true →
    ((patchChunks ppm false cs).findIdx (fun c => decide (c.typ = pHYsTag)) + 1 =
      (patchChunks ppm false cs).findIdx (fun c => decide (c.typ = idatTag))) ∧
    (patchChunks ppm false cs).findIdx (fun c => decide (c.typ = idatTag)) <
      (patchChunks ppm false cs).length := by
  intro cs
  induction cs with
  | nil => intro h; simp at h
  | cons a cs ih =>
    intro hany
    simp only [patchChunks, true_and]
    by_cases hp : a.typ = pHYsTag
    · rw [if_pos hp]
      apply ih
      have hna : a.typ ≠ idatTag := by rw [hp]; decide
      simpa [hna] using hany
    · rw [if_neg hp]
      by_cases hi : a.typ = idatTag
      · rw [if_pos hi]
        have hphys : decide ((physChunk ppm).typ = pHYsTag) = true := by
          simp [physChunk]
        have hphysi : decide ((physChunk ppm).typ = idatTag) = false := by
          simp [physChunk, pHYsTag, idatTag]
        have hai : decide (a.typ = idatTag) = true := by simp [hi]
        constructor
        · rw [List.findIdx_cons, hphys]
          simp only [cond_true]
          rw [List.findIdx_cons, hphysi]
          simp only [cond_false]
          rw [List.findIdx_cons, hai]
          simp only [cond_true]
        · simp only [List.length_cons]
          rw [List.findIdx_cons, hphysi]
          simp only [cond_false]
          rw [List.findIdx_cons, hai]
          simp
      · rw [if_neg hi]
        have hna : a.typ ≠ idatTag := hi
        have hrec := ih (by simpa [hna] using hany)
        have h1 : decide (a.typ = pHYsTag) = false := by simp [hp]
        have h2 : decide (a.typ = idatTag) = false := by simp [hna]
        constructor
        · rw [List.findIdx_cons, List.findIdx_cons, h1, h2]
          simp only [cond_false]
          omega
        · rw [List.findIdx_cons, h2]
          simp only [cond_false, List.length_cons]
          omega

theorem patchChunks_filter (ppm : Nat) : ∀ (cs : List PngChunk) (w : Bool),
    (patchChunks ppm w cs).filter (fun c => !decide (c.typ = pHYsTag)) =
      cs.filter (fun c => !decide (c.typ = pHYsTag)) := by
  intro cs
  induction cs with
  | nil => intro w; rfl
  | cons a cs ih =>
    intro w
    simp only [patchChunks]
    by_cases hp : a.typ = pHYsTag
    · rw [if_pos hp, List.filter_cons_of_neg (by simp [hp])]
      exact ih w
    · rw [if_neg hp]
      by_cases hi : w = false ∧ a.typ = idatTag
      · rw [if_pos hi, List.filter_cons_of_neg (by simp [physChunk]),
          List.filter_cons_of_pos (by simp [hp]), List.filter_cons_of_pos (by simp [hp])]
        rw [ih true]
      · rw [if_neg hi, List.filter_cons_of_pos (by simp [hp]),
          List.filter_cons_of_pos (by simp [hp])]
        rw [ih w]

theorem patchChunks_cons_phys (ppm : Nat) (w : Bool) (c : PngChunk) (cs : List PngChunk)
    (h : c.typ = pHYsTag) : patchChunks ppm w (c :: cs) = patchChunks ppm w cs := by
  simp [patchChunks, h]

theorem patchChunks_cons_idat (ppm : Nat) (c : PngChunk) (cs : List PngChunk)
    (h2 : c.typ = idatTag) :
    patchChunks ppm false (c :: cs) = physChunk ppm :: c :: patchChunks ppm true cs := by
  have hip : ¬ (idatTag = pHYsTag) := by decide
  simp [patchChunks, h2, hip]

theorem patchChunks_cons_other (ppm : Nat) (w : Bool) (c : PngChunk) (cs : List PngChunk)
    (h1 : ¬ c.typ = pHYsTag) (h2 : ¬ (w = false ∧ c.typ = idatTag)) :
    patchChunks ppm w (c :: cs) = c :: patchChunks ppm w cs := by
  simp only [patchChunks]
  rw [if_neg h1, if_neg h2]

/-! ### The loop refines scan-then-patch-then-serialize -/

theorem take_chunk_eq (rest : List Nat) (len : Nat) :
    rest.take (12 + len) = chunkBytes ⟨rest.take 4, (rest.drop 4).take 4,
      (rest.drop 8).take len, ((rest.drop 8).drop len).take 4⟩ := by
  simp only [chunkBytes, List.append_assoc]
  exact take_chunk_split rest len

/-- Any successful loop run on a spec-scannable span produces exactly the
serialized patch of the scanned chunks. -/
theorem loopF_sound (cap ppm : Nat) : ∀ (fuel : Nat) (rest out : List Nat) (wrote : Bool)
    (cs : List PngChunk) (res : List Nat),
    rest.length ≤ fuel → rest.length < 4294967296 →
    scanChunksF fuel rest = some cs →
    pngPatchLoopF cap ppm fuel rest out wrote = .ok res →
    res = out ++ serializeChunks (patchChunks ppm wrote cs) := by
  intro fuel
  induction fuel with
  | zero =>
    intro rest out wrote cs res hf h32 hscan hloop
    simp only [scanChunksF] at hscan
    obtain rfl : ([] : List PngChunk) = cs := Option.some.inj hscan
    simp only [pngPatchLoopF] at hloop
    injection hloop with h
    subst h
    simp [patchChunks, serializeChunks_nil]
  | succ fuel ih =>
    intro rest out wrote cs res hf h32 hscan hloop
    by_cases h12 : rest.length < 12
    · rw [scanChunksF_short _ _ h12] at hscan
      obtain rfl : ([] : List PngChunk) = cs := Option.some.inj hscan
      simp only [pngPatchLoopF, if_pos h12] at hloop
      injection hloop with h
      subst h
      simp [patchChunks, serializeChunks_nil]
    · simp only [scanChunksF, if_neg h12] at hscan
      simp only [pngPatchLoopF, if_neg h12] at hloop
      push_neg at h12
      set len := _png_read_u32_be (rest.take 4) with hlen
      set typ := (rest.drop 4).take 4 with htypdef
      by_cases hover : (rest.drop 8).length < len + 4
      · rw [if_pos hover] at hscan
        exact absurd hscan (by simp)
      · rw [if_neg hover] at hscan
        push_neg at hover
        have hr2 : (rest.drop 8).length = rest.length - 8 := by simp
        have hmod : (len + 4) % 4294967296 = len + 4 := Nat.mod_eq_of_lt (by omega)
        rw [hmod, if_neg (by omega)] at hloop
        set c0 : PngChunk := ⟨rest.take 4, typ, (rest.drop 8).take len,
          ((rest.drop 8).drop len).take 4⟩ with hc0
        have hc0typ : c0.typ = typ := by rw [hc0]
        have hcopy : rest.take (12 + len) = chunkBytes c0 := by
          rw [hc0, htypdef]
          exact take_chunk_eq rest len
        have hr3 : ((rest.drop 8).drop (len + 4)).length = rest.length - 8 - (len + 4) := by
          simp
          omega
        by_cases hphys : typ = pHYsTag
        · rw [if_pos hphys] at hloop
          have hiendne : ¬ typ = iendTag := by rw [hphys]; decide
          rw [if_neg hiendne, Option.map_eq_some'] at hscan
          obtain ⟨cs', hscan', rfl⟩ := hscan
          have hres := ih _ out wrote cs' res (by omega) (by omega) hscan' hloop
          rw [hres]
          simp only [patchChunks, hc0typ]
          rw [if_pos hphys]
        · rw [if_neg hphys] at hloop
          by_cases hinj : wrote = false ∧ typ = idatTag
          · rw [if_pos hinj] at hloop
            by_cases hcap22 : out.length + 21 > cap
            · rw [if_pos hcap22] at hloop
              exact absurd hloop (by simp)
            · rw [if_neg hcap22] at hloop
              by_cases hcap23 : (out ++ _png_emit_pHYs ppm).length + 12 + len > cap
              · rw [if_pos hcap23] at hloop
                exact absurd hloop (by simp)
              · rw [if_neg hcap23] at hloop
                have hiendne : ¬ typ = iendTag := by rw [hinj.2]; decide
                rw [if_neg hiendne] at hloop
                rw [if_neg hiendne, Option.map_eq_some'] at hscan
                obtain ⟨cs', hscan', rfl⟩ := hscan
                rw [hcopy] at hloop
                have hres := ih _ _ true cs' res (by omega) (by omega) hscan' hloop
                rw [hres, hinj.1]
                have hidp : ¬ (idatTag = pHYsTag) := by decide
                simp [patchChunks, hc0typ, hphys, hinj.2, hidp, serializeChunks_cons,
                  chunkBytes_physChunk, List.append_assoc]
          · rw [if_neg hinj] at hloop
            by_cases hcap23 : out.length + 12 + len > cap
            · rw [if_pos hcap23] at hloop
              exact absurd hloop (by simp)
            · rw [if_neg hcap23] at hloop
              by_cases hiendT : typ = iendTag
              · rw [if_pos hiendT] at hscan
                obtain rfl : [c0] = cs := Option.some.inj hscan
                rw [if_pos hiendT] at hloop
                injection hloop with h
                subst h
                simp [patchChunks, hc0typ, hphys, hinj, serializeChunks_cons,
                  serializeChunks_nil, hcopy]
              · rw [if_neg hiendT] at hloop
                rw [if_neg hiendT, Option.map_eq_some'] at hscan
                obtain ⟨cs', hscan', rfl⟩ := hscan
                rw [hcopy] at hloop
                have hres := ih _ _ wrote cs' res (by omega) (by omega) hscan' hloop
                rw [hres]
                simp [patchChunks, hc0typ, hphys, hinj, serializeChunks_cons,
                  List.append_assoc]

/-- On a spec-scannable span whose patched serialization fits the output
capacity, the loop succeeds and assembles exactly the serialized patch. -/
theorem loopF_complete (cap ppm : Nat) : ∀ (fuel : Nat) (rest out : List Nat) (wrote : Bool)
    (cs : List PngChunk),
    rest.length ≤ fuel → rest.length < 4294967296 →
    scanChunksF fuel rest = some cs →
    out.length + (serializeChunks (patchChunks ppm wrote cs)).length ≤ cap →
    pngPatchLoopF cap ppm fuel rest out wrote =
      .ok (out ++ serializeChunks (patchChunks ppm wrote cs)) := by
  intro fuel
  induction fuel with
  | zero =>
    intro rest out wrote cs hf h32 hscan hcap
    simp only [scanChunksF] at hscan
    obtain rfl : ([] : List PngChunk) = cs := Option.some.inj hscan
    simp [pngPatchLoopF, patchChunks, serializeChunks_nil]
  | succ fuel ih =>
    intro rest out wrote cs hf h32 hscan hcap
    by_cases h12 : rest.length < 12
    · rw [scanChunksF_short _ _ h12] at hscan
      obtain rfl : ([] : List PngChunk) = cs := Option.some.inj hscan
      simp [pngPatchLoopF, if_pos h12, patchChunks, serializeChunks_nil]
    · simp only [scanChunksF, if_neg h12] at hscan
      simp only [pngPatchLoopF, if_neg h12]
      push_neg at h12
      set len := _png_read_u32_be (rest.take 4) with hlen
      set typ := (rest.drop 4).take 4 with htypdef
      by_cases hover : (rest.drop 8).length < len + 4
      · rw [if_pos hover] at hscan
        exact absurd hscan (by simp)
      · rw [if_neg hover] at hscan
        push_neg at hover
        have hr2 : (rest.drop 8).length = rest.length - 8 := by simp
        have hmod : (len + 4) % 4294967296 = len + 4 := Nat.mod_eq_of_lt (by omega)
        rw [hmod, if_neg (by omega)]
        set c0 : PngChunk := ⟨rest.take 4, typ, (rest.drop 8).take len,
          ((rest.drop 8).drop len).take 4⟩ with hc0
        have hc0typ : c0.typ = typ := by rw [hc0]
        have hcopy : rest.take (12 + len) = chunkBytes c0 := by
          rw [hc0, htypdef]
          exact take_chunk_eq rest len
        have htyplen : typ.length = 4 := by
          rw [htypdef]
          simp
          omega
        have hsz : (chunkBytes c0).length = 12 + len := by
          rw [hc0]
          simp [chunkBytes, htyplen]
          omega
        have hr3 : ((rest.drop 8).drop (len + 4)).length = rest.length - 8 - (len + 4) := by
          simp
          omega
        by_cases hphys : typ = pHYsTag
        · rw [if_pos hphys]
          have hiendne : ¬ typ = iendTag := by rw [hphys]; decide
          rw [if_neg hiendne, Option.map_eq_some'] at hscan
          obtain ⟨cs', hscan', rfl⟩ := hscan
          have hpatch : patchChunks ppm wrote (c0 :: cs') = patchChunks ppm wrote cs' := by
            simp only [patchChunks, hc0typ]
            rw [if_pos hphys]
          rw [hpatch] at hcap ⊢
          exact ih _ out wrote cs' (by omega) (by omega) hscan' hcap
        · rw [if_neg hphys]
          by_cases hinj : wrote = false ∧ typ = idatTag
          · rw [if_pos hinj]
            have hiendne : ¬ typ = iendTag := by rw [hinj.2]; decide
            rw [if_neg hiendne, Option.map_eq_some'] at hscan
            obtain ⟨cs', hscan', rfl⟩ := hscan
            have hpatch : patchChunks ppm wrote (c0 :: cs') =
                physChunk ppm :: c0 :: patchChunks ppm true cs' := by
              simp only [patchChunks, hc0typ]
              rw [if_neg hphys, if_pos hinj]
            have hserlen : (serializeChunks (patchChunks ppm wrote (c0 :: cs'))).length =
                21 + ((12 + len) + (serializeChunks (patchChunks ppm true cs')).length) := by
              rw [hpatch, serializeChunks_cons, serializeChunks_cons]
              have h21 : (chunkBytes (physChunk ppm)).length = 21 := by
                rw [chunkBytes_physChunk]
                exact _png_emit_pHYs_length ppm
              simp [List.length_append, h21, hsz]
            rw [hserlen] at hcap
            have hemit : (_png_emit_pHYs ppm).length = 21 := _png_emit_pHYs_length ppm
            rw [if_neg (by omega)]
            rw [if_neg (by simp only [List.length_append, hemit]; omega)]
            rw [if_neg hiendne, hcopy]
            rw [ih _ _ true cs' (by omega) (by omega) hscan'
              (by simp only [List.length_append, hemit, hsz]; omega)]
            rw [hpatch, serializeChunks_cons, serializeChunks_cons, chunkBytes_physChunk]
            simp [List.append_assoc]
          · rw [if_neg hinj]
            by_cases hiendT : typ = iendTag
            · rw [if_pos hiendT] at hscan
              obtain rfl : [c0] = cs := Option.some.inj hscan
              have hpatch : patchChunks ppm wrote [c0] = [c0] := by
                simp only [patchChunks, hc0typ]
                rw [if_neg hphys, if_neg hinj]
              have hserlen : (serializeChunks (patchChunks ppm wrote [c0])).length =
                  12 + len := by
                rw [hpatch, serializeChunks_cons, serializeChunks_nil]
                simp [hsz]
              rw [hserlen] at hcap
              rw [if_neg (by omega), if_pos hiendT, hcopy, hpatch,
                serializeChunks_cons, serializeChunks_nil]
              simp
            · rw [if_neg hiendT] at hscan
              rw [Option.map_eq_some'] at hscan
              obtain ⟨cs', hscan', rfl⟩ := hscan
              have hpatch : patchChunks ppm wrote (c0 :: cs') =
                  c0 :: patchChunks ppm wrote cs' := by
                simp only [patchChunks, hc0typ]
                rw [if_neg hphys, if_neg hinj]
              have hserlen : (serializeChunks (patchChunks ppm wrote (c0 :: cs'))).length =
                  (12 + len) + (serializeChunks (patchChunks ppm wrote cs')).length := by
                rw [hpatch, serializeChunks_cons]
                simp [hsz]
              rw [hserlen] at hcap
              rw [if_neg (by omega), if_neg hiendT, hcopy]
              rw [ih _ _ wrote cs' (by omega) (by omega) hscan'
                (by simp only [List.length_append, hsz]; omega)]
              rw [hpatch, serializeChunks_cons]
              simp [List.append_assoc]

/-- Characterization of every successful loop run, without any assumption on
the input bytes: the result extends `out` by the serialization of a
well-formed chunk list that the patch policy leaves fixed.  The capacity
bound rules out a 32-bit wrap of any copied chunk's length. -/
theorem loopF_general (cap ppm : Nat) (hcapb : cap + 16 < 4294967296) :
    ∀ (fuel : Nat) (rest out : List Nat) (wrote : Bool) (res : List Nat),
    rest.length ≤ fuel →
    pngPatchLoopF cap ppm fuel rest out wrote = .ok res →
    ∃ ds : List PngChunk, res = out ++ serializeChunks ds ∧
      (∀ c ∈ ds, wfChunk c) ∧ iendOnlyLast ds ∧
      patchChunks ppm wrote ds = ds := by
  intro fuel
  induction fuel with
  | zero =>
    intro rest out wrote res hf hloop
    simp only [pngPatchLoopF] at hloop
    injection hloop with h
    subst h
    exact ⟨[], by simp [serializeChunks_nil], by simp, trivial, rfl⟩
  | succ fuel ih =>
    intro rest out wrote res hf hloop
    by_cases h12 : rest.length < 12
    · simp only [pngPatchLoopF, if_pos h12] at hloop
      injection hloop with h
      subst h
      exact ⟨[], by simp [serializeChunks_nil], by simp, trivial, rfl⟩
    · simp only [pngPatchLoopF, if_neg h12] at hloop
      push_neg at h12
      set len := _png_read_u32_be (rest.take 4) with hlen
      set typ := (rest.drop 4).take 4 with htypdef
      by_cases hguard : (rest.drop 8).length < (len + 4) % 4294967296
      · rw [if_pos hguard] at hloop
        exact absurd hloop (by simp)
      · rw [if_neg hguard] at hloop
        push_neg at hguard
        have hr2 : (rest.drop 8).length = rest.length - 8 := by simp
        have hr3 : ((rest.drop 8).drop (len + 4)).length =
            rest.length - 8 - (len + 4) := by
          simp
          omega
        set c0 : PngChunk := ⟨rest.take 4, typ, (rest.drop 8).take len,
          ((rest.drop 8).drop len).take 4⟩ with hc0
        have hc0typ : c0.typ = typ := by rw [hc0]
        have hcopy : rest.take (12 + len) = chunkBytes c0 := by
          rw [hc0, htypdef]
          exact take_chunk_eq rest len
        have htyplen : typ.length = 4 := by
          rw [htypdef]
          simp
          omega
        have hwfc0 : len + 4 < 4294967296 → wfChunk c0 := by
          intro hsmall
          have hmod : (len + 4) % 4294967296 = len + 4 := Nat.mod_eq_of_lt hsmall
          rw [hmod] at hguard
          refine ⟨?_, ?_, ?_, ?_, ?_⟩
          · rw [hc0]; simp; omega
          · rw [hc0]; exact htyplen
          · rw [hc0]; simp; omega
          · rw [hc0]
            show _png_read_u32_be (rest.take 4) = ((rest.drop 8).take len).length
            rw [← hlen]
            simp
            omega
          · rw [hc0]
            show ((rest.drop 8).take len).length + 4 < 4294967296
            simp
            omega
        by_cases hphys : typ = pHYsTag
        · rw [if_pos hphys] at hloop
          exact ih _ out wrote res (by omega) hloop
        · rw [if_neg hphys] at hloop
          by_cases hinj : wrote = false ∧ typ = idatTag
          · rw [if_pos hinj] at hloop
            by_cases hcap22 : out.length + 21 > cap
            · rw [if_pos hcap22] at hloop
              exact absurd hloop (by simp)
            · rw [if_neg hcap22] at hloop
              by_cases hcap23 : (out ++ _png_emit_pHYs ppm).length + 12 + len > cap
              · rw [if_pos hcap23] at hloop
                exact absurd hloop (by simp)
              · rw [if_neg hcap23] at hloop
                push_neg at hcap23
                have hwf0 : wfChunk c0 := hwfc0 (by omega)
                have hiendne : ¬ typ = iendTag := by rw [hinj.2]; decide
                rw [if_neg hiendne, hcopy] at hloop
                obtain ⟨ds', hres, hwf', hiend', hfix'⟩ :=
                  ih _ _ true res (by omega) hloop
                refine ⟨physChunk ppm :: c0 :: ds', ?_, ?_, ?_, ?_⟩
                · rw [hres, serializeChunks_cons, serializeChunks_cons,
                    chunkBytes_physChunk]
                  simp [List.append_assoc]
                · intro c hc
                  rcases List.mem_cons.mp hc with rfl | hc'
                  · exact wfChunk_physChunk ppm
                  · rcases List.mem_cons.mp hc' with rfl | hc''
                    · exact hwf0
                    · exact hwf' c hc''
                · refine (iendOnlyLast_cons _ _).mpr ⟨?_, (iendOnlyLast_cons _ _).mpr
                    ⟨?_, hiend'⟩⟩
                  · intro hx
                    simp [physChunk, pHYsTag, iendTag] at hx
                  · intro hx
                    rw [hc0typ] at hx
                    exact absurd hx hiendne
                · rw [hinj.1]
                  rw [patchChunks_cons_phys ppm false (physChunk ppm) _ rfl]
                  rw [patchChunks_cons_idat ppm c0 ds' (by rw [hc0typ]; exact hinj.2)]
                  rw [hfix']
          · rw [if_neg hinj] at hloop
            by_cases hcap23 : out.length + 12 + len > cap
            · rw [if_pos hcap23] at hloop
              exact absurd hloop (by simp)
            · rw [if_neg hcap23] at hloop
              push_neg at hcap23
              have hwf0 : wfChunk c0 := hwfc0 (by omega)
              by_cases hiendT : typ = iendTag
              · rw [if_pos hiendT, hcopy] at hloop
                injection hloop with h
                subst h
                refine ⟨[c0], by simp [serializeChunks_cons, serializeChunks_nil], ?_, ?_, ?_⟩
                · intro c hc
                  simp at hc
                  subst hc
                  exact hwf0
                · exact ⟨fun _ => rfl, trivial⟩
                · rw [patchChunks_cons_other ppm wrote c0 []
                    (by rw [hc0typ]; exact hphys)
                    (by intro hx; exact hinj ⟨hx.1, by rw [← hc0typ]; exact hx.2⟩)]
                  rfl
              · rw [if_neg hiendT, hcopy] at hloop
                obtain ⟨ds', hres, hwf', hiend', hfix'⟩ :=
                  ih _ _ wrote res (by omega) hloop
                refine ⟨c0 :: ds', ?_, ?_, ?_, ?_⟩
                · rw [hres, serializeChunks_cons]
                  simp [List.append_assoc]
                · intro c hc
                  rcases List.mem_cons.mp hc with rfl | hc'
                  · exact hwf0
                  · exact hwf' c hc'
                · exact (iendOnlyLast_cons _ _).mpr
                    ⟨fun hx => absurd (hc0typ ▸ hx) hiendT, hiend'⟩
                · rw [patchChunks_cons_other ppm wrote c0 ds'
                    (by rw [hc0typ]; exact hphys)
                    (by intro hx; exact hinj ⟨hx.1, by rw [← hc0typ]; exact hx.2⟩)]
                  rw [hfix']

/-! ### Top-level glue -/

theorem pngPatchLoopF_short (cap ppm fuel : Nat) (rest out : List Nat) (wrote : Bool)
    (h : rest.length < 12) : pngPatchLoopF cap ppm fuel rest out wrote = .ok out := by
  cases fuel with
  | zero => rfl
  | succ n => simp only [pngPatchLoopF, if_pos h]

theorem update_ok_elim (input : List Nat) (dpi : Int) (out : List Nat)
    (h : update_png_dpi input dpi = .ok out) :
    input.length ≤ MAX_PNG_SIZE ∧ 8 ≤ input.length ∧ input.take 8 = pngSig ∧
    pngPatchLoopF (MAX_PNG_SIZE + 64) (_png_dpi_to_ppm dpi) (input.drop 8).length
      (input.drop 8) pngSig false = .ok out := by
  rw [update_png_dpi] at h
  by_cases h4 : input.length > MAX_PNG_SIZE
  · rw [if_pos h4] at h
    exact absurd h (by simp)
  · rw [if_neg h4] at h
    by_cases h3 : input.length < 8 ∨ input.take 8 ≠ pngSig
    · rw [if_pos h3] at h
      exact absurd h (by simp)
    · rw [if_neg h3] at h
      push_neg at h3 h4
      rw [pngPatchLoop, h3.2] at h
      exact ⟨h4, h3.1, h3.2, h⟩

theorem loopF_error_nonzero (cap ppm : Nat) : ∀ (fuel : Nat) (rest out : List Nat)
    (wrote : Bool) (e : Nat),
    pngPatchLoopF cap ppm fuel rest out wrote = .error e → e ≠ 0 := by
  intro fuel
  induction fuel with
  | zero =>
    intro rest out wrote e h
    exact absurd h (by simp [pngPatchLoopF])
  | succ fuel ih =>
    intro rest out wrote e h
    by_cases h12 : rest.length < 12
    · rw [pngPatchLoopF_short _ _ _ _ _ _ h12] at h
      exact absurd h (by simp)
    · simp only [pngPatchLoopF, if_neg h12] at h
      split_ifs at h with h1 h2 h3 h4 h5 h6 h7 h8
      all_goals
        first
        | (injection h with h9; omega)
        | (exact ih _ _ _ _ h)

theorem update_error_nonzero (contents : List Nat) (dpi : Int) (e : Nat)
    (he : update_png_dpi contents dpi = .error e) : e ≠ 0 := by
  rw [update_png_dpi] at he
  by_cases h4 : contents.length > MAX_PNG_SIZE
  · rw [if_pos h4] at he
    injection he with h
    omega
  · rw [if_neg h4] at he
    by_cases h3 : contents.length < 8 ∨ contents.take 8 ≠ pngSig
    · rw [if_pos h3] at he
      injection he with h
      omega
    · rw [if_neg h3, pngPatchLoop] at he
      exact loopF_error_nonzero _ _ _ _ _ _ _ he

/-! ### Claim theorems on error handling and the wraparound defect -/

/-- Claim C4 (failing input): an input whose chunk declares length 0xFFFFFFFF
with type `"pHYs"` makes the C expression `len + 4` wrap to 3 in 32-bit
arithmetic; the malformed-input check passes, the chunk and everything after
it is silently skipped, and `update_png_dpi` returns 0 (success) with the
output truncated to the bare signature — instead of aborting with the
FormatError the claim and spec require. -/
theorem wrap_length_bypasses_malformed_check :
    update_png_dpi wrapPhysInput 300 = .ok pngSig := rfl

/-- Claim C8 (counterexample): an input whose trailing chunk header cannot be
fully read (a single byte after the signature) does NOT abort the scan — the
loop ends non-fatally and the patch succeeds, returning the assembled output,
contrary to the claim that a short header is a fatal Truncated/Malformed
condition. -/
theorem truncated_header_is_nonfatal :
    update_png_dpi (pngSig ++ [0]) 300 = .ok pngSig := rfl

/-- Claim C8 (amended): when fewer than 12 bytes remain, the scan ends
non-fatally with the output assembled so far (no partial chunk is emitted);
only a declared length whose `len + 4` (32-bit) overruns the remaining
buffer aborts the whole patch with error 21. -/
theorem scan_aborts_only_on_overrun (cap ppm : Nat) (rest out : List Nat) (wrote : Bool) :
    (rest.length < 12 → pngPatchLoop cap ppm rest out wrote = .ok out) ∧
    (12 ≤ rest.length →
      (rest.drop 8).length < (_png_read_u32_be (rest.take 4) + 4) % 4294967296 →
      pngPatchLoop cap ppm rest out wrote = .error 21) := by
  constructor
  · intro h
    rw [pngPatchLoop]
    exact pngPatchLoopF_short _ _ _ _ _ _ h
  · intro h12 hover
    rw [pngPatchLoop]
    obtain ⟨f, hf⟩ : ∃ f, rest.length = f + 1 := ⟨rest.length - 1, by omega⟩
    rw [hf]
    simp only [pngPatchLoopF, if_neg (show ¬ rest.length < 12 by omega)]
    rw [if_pos hover]

/-- Witness for the amended C8 at concrete inputs: a 1-byte remainder ends
the scan successfully; a 12-byte chunk whose declared length overruns the
buffer aborts with error 21. -/
theorem scan_aborts_only_on_overrun_witness :
    pngPatchLoop 100 1 [0] [5] false = .ok [5] ∧
    pngPatchLoop 100 1 [255, 255, 255, 250, 0, 0, 0, 0, 1, 2, 3, 4] [5] false =
      .error 21 :=
  ⟨(scan_aborts_only_on_overrun 100 1 [0] [5] false).1 (by decide),
   (scan_aborts_only_on_overrun 100 1 [255, 255, 255, 250, 0, 0, 0, 0, 1, 2, 3, 4]
     [5] false).2 (by decide) (by decide)⟩

/-- Claim C5: every input failing the signature check (including short
inputs) or chunk-structure validation yields a nonzero status, and the
destination file keeps its pre-call bytes — every validation error in the
source returns before the destructive `fopen(path, "wb")`. -/
theorem error_preserves_destination (contents : List Nat) (dpi : Int) :
    (∀ e, update_png_dpi contents dpi = .error e →
      e ≠ 0 ∧ update_png_dpi_file contents dpi = (e, contents)) ∧
    (contents.take 8 ≠ pngSig →
      (update_png_dpi_file contents dpi).1 ≠ 0 ∧
      (update_png_dpi_file contents dpi).2 = contents) := by
  constructor
  · intro e he
    refine ⟨update_error_nonzero _ _ _ he, ?_⟩
    simp only [update_png_dpi_file, he]
  · intro hsig
    obtain ⟨e, he⟩ : ∃ e, update_png_dpi contents dpi = .error e := by
      rw [update_png_dpi]
      by_cases h4 : contents.length > MAX_PNG_SIZE
      · exact ⟨4, by rw [if_pos h4]⟩
      · exact ⟨3, by rw [if_neg h4, if_pos (Or.inr hsig)]⟩
    simp only [update_png_dpi_file, he]
    exact ⟨update_error_nonzero _ _ _ he, trivial⟩

/-- Witness for C5: the 3-byte input `[1, 2, 3]` fails the signature check
with status 3 and the destination bytes are unchanged. -/
theorem error_preserves_destination_witness :
    (3 : Nat) ≠ 0 ∧ update_png_dpi_file [1, 2, 3] 300 = (3, [1, 2, 3]) :=
  (error_preserves_destination [1, 2, 3] 300).1 3 rfl

/-! ### Claim theorems on the patched output's chunk structure -/

/-- Claim C1: for every input beginning with the PNG signature whose chunk
stream (scanned up to IEND) contains an IDAT chunk, and every DPI, the output
assembled by `update_png_dpi` contains exactly one pHYs-tagged chunk, located
immediately before the first IDAT chunk of the output. -/
theorem phys_unique_before_first_idat (input : List Nat) (dpi : Int) (out : List Nat)
    (cs : List PngChunk)
    (hok : update_png_dpi input dpi = .ok out)
    (hscan : scanChunks (input.drop 8) = some cs)
    (hidat : cs.any (fun c => decide (c.typ = idatTag)) = true) :
    ∃ outCs : List PngChunk, scanChunks (out.drop 8) = some outCs ∧
      outCs.countP (fun c => decide (c.typ = pHYsTag)) = 1 ∧
      outCs.findIdx (fun c => decide (c.typ = pHYsTag)) + 1 =
        outCs.findIdx (fun c => decide (c.typ = idatTag)) ∧
      outCs.findIdx (fun c => decide (c.typ = idatTag)) < outCs.length := by
  obtain ⟨hmax, h8, hsig, hloop⟩ := update_ok_elim input dpi out hok
  rw [scanChunks] at hscan
  have hMAXv : MAX_PNG_SIZE = 33554432 := rfl
  have h32 : (input.drop 8).length < 4294967296 := by
    simp only [List.length_drop]
    omega
  have hres := loopF_sound _ (_png_dpi_to_ppm dpi) _ _ pngSig false cs out
    (le_refl _) h32 hscan hloop
  have hfacts := scanF_facts _ _ cs (le_refl _) h32 hscan
  refine ⟨patchChunks (_png_dpi_to_ppm dpi) false cs, ?_,
    patchChunks_count_one _ cs hidat,
    (patchChunks_firstIdx _ cs hidat).1, (patchChunks_firstIdx _ cs hidat).2⟩
  rw [hres, List.drop_left' (show (pngSig : List Nat).length = 8 from rfl), scanChunks]
  exact scanF_serialize _ _ (le_refl _)
    (patchChunks_wf _ cs false hfacts.1)
    (patchChunks_iendOnlyLast _ cs false hfacts.2.1)

/-- Witness for C1 on the concrete two-chunk image `exInput` at 300 DPI. -/
theorem phys_unique_before_first_idat_witness :
    ∃ outCs : List PngChunk, scanChunks (exOutput.drop 8) = some outCs ∧
      outCs.countP (fun c => decide (c.typ = pHYsTag)) = 1 ∧
      outCs.findIdx (fun c => decide (c.typ = pHYsTag)) + 1 =
        outCs.findIdx (fun c => decide (c.typ = idatTag)) ∧
      outCs.findIdx (fun c => decide (c.typ = idatTag)) < outCs.length :=
  phys_unique_before_first_idat exInput 300 exOutput exChunks rfl rfl rfl

/-- Claim C3: the output is exactly the signature followed by the serialized
patched chunk list — so the subsequence of non-pHYs chunks of the output
equals, byte for byte (length bytes, type, data, and the stored trailer CRC
bytes copied verbatim), the non-pHYs subsequence of the input's chunks, and
the only structural change is pHYs removal plus the single synthesized pHYs
inserted immediately before the first IDAT. -/
theorem patch_preserves_non_phys (input : List Nat) (dpi : Int) (out : List Nat)
    (cs : List PngChunk)
    (hok : update_png_dpi input dpi = .ok out)
    (hscan : scanChunks (input.drop 8) = some cs) :
    out = pngSig ++ serializeChunks (patchChunks (_png_dpi_to_ppm dpi) false cs) ∧
    scanChunks (out.drop 8) = some (patchChunks (_png_dpi_to_ppm dpi) false cs) ∧
    (patchChunks (_png_dpi_to_ppm dpi) false cs).filter
        (fun c => !decide (c.typ = pHYsTag)) =
      cs.filter (fun c => !decide (c.typ = pHYsTag)) := by
  obtain ⟨hmax, h8, hsig, hloop⟩ := update_ok_elim input dpi out hok
  rw [scanChunks] at hscan
  have hMAXv : MAX_PNG_SIZE = 33554432 := rfl
  have h32 : (input.drop 8).length < 4294967296 := by
    simp only [List.length_drop]
    omega
  have hres := loopF_sound _ (_png_dpi_to_ppm dpi) _ _ pngSig false cs out
    (le_refl _) h32 hscan hloop
  have hfacts := scanF_facts _ _ cs (le_refl _) h32 hscan
  refine ⟨hres, ?_, patchChunks_filter _ cs false⟩
  rw [hres, List.drop_left' (show (pngSig : List Nat).length = 8 from rfl), scanChunks]
  exact scanF_serialize _ _ (le_refl _)
    (patchChunks_wf _ cs false hfacts.1)
    (patchChunks_iendOnlyLast _ cs false hfacts.2.1)

/-- Witness for C3 on the concrete two-chunk image `exInput` at 300 DPI. -/
theorem patch_preserves_non_phys_witness :
    exOutput = pngSig ++
      serializeChunks (patchChunks (_png_dpi_to_ppm 300) false exChunks) ∧
    scanChunks (exOutput.drop 8) =
      some (patchChunks (_png_dpi_to_ppm 300) false exChunks) ∧
    (patchChunks (_png_dpi_to_ppm 300) false exChunks).filter
        (fun c => !decide (c.typ = pHYsTag)) =
      exChunks.filter (fun c => !decide (c.typ = pHYsTag)) :=
  patch_preserves_non_phys exInput 300 exOutput exChunks rfl rfl

/-! ### Claim theorems on output size, capacity, and idempotence -/

/-- Claim C10 (counterexample): a 20-byte input below `MAX_PNG_SIZE` that
passes the signature check reaches the output-capacity branch: a declared
length of 0xFFFFFFFF with a non-structural type wraps the malformed check and
then trips the capacity test, returning code 23. -/
theorem capacity_branch_reachable :
    wrapCopyInput.length ≤ MAX_PNG_SIZE ∧ wrapCopyInput.take 8 = pngSig ∧
    update_png_dpi wrapCopyInput 300 = .error 23 :=
  ⟨by decide, rfl, rfl⟩

/-- Claim C10 (amended): for every input of size at most `MAX_PNG_SIZE` that
passes the signature check and whose chunk stream scans cleanly (no declared
length overruns the remaining buffer, hence no 32-bit wraparound in the
bounds check), the patch succeeds and the assembled output never exceeds the
input size plus 21 bytes, so the capacity branches (codes 22 and 23) are
unreachable. -/
theorem output_size_bounded (input : List Nat) (dpi : Int) (cs : List PngChunk)
    (hmax : input.length ≤ MAX_PNG_SIZE)
    (hsig : input.take 8 = pngSig)
    (hscan : scanChunks (input.drop 8) = some cs) :
    ∃ out, update_png_dpi input dpi = .ok out ∧ out.length ≤ input.length + 21 := by
  have h8 : 8 ≤ input.length := by
    have h := congrArg List.length hsig
    rw [show (pngSig : List Nat).length = 8 from rfl] at h
    simp at h
    omega
  have hMAXv : MAX_PNG_SIZE = 33554432 := rfl
  have h32 : (input.drop 8).length < 4294967296 := by
    simp only [List.length_drop]
    omega
  rw [scanChunks] at hscan
  have hfacts := scanF_facts _ _ cs (le_refl _) h32 hscan
  have hdroplen : (input.drop 8).length = input.length - 8 := by simp
  have hsize := patchChunks_size (_png_dpi_to_ppm dpi) cs false
  simp only [cond_false] at hsize
  have hcap : (pngSig : List Nat).length +
      (serializeChunks (patchChunks (_png_dpi_to_ppm dpi) false cs)).length ≤
      MAX_PNG_SIZE + 64 := by
    have h1 := hfacts.2.2
    show 8 + _ ≤ MAX_PNG_SIZE + 64
    omega
  refine ⟨pngSig ++ serializeChunks (patchChunks (_png_dpi_to_ppm dpi) false cs), ?_, ?_⟩
  · rw [update_png_dpi, if_neg (by omega),
      if_neg (by push_neg; exact ⟨by omega, hsig⟩), pngPatchLoop, hsig]
    exact loopF_complete _ _ _ _ pngSig false cs (le_refl _) h32 hscan hcap
  · have h1 := hfacts.2.2
    simp only [List.length_append]
    show 8 + _ ≤ input.length + 21
    omega

/-- Witness for the amended C10 on the concrete two-chunk image `exInput`. -/
theorem output_size_bounded_witness :
    ∃ out, update_png_dpi exInput 300 = .ok out ∧
      out.length ≤ exInput.length + 21 :=
  output_size_bounded exInput 300 exChunks (by decide) rfl rfl

/-- Claim C6 (amended): the patch is idempotent whenever the first output
still fits the input size bound — if `update_png_dpi` succeeds and its output
is at most `MAX_PNG_SIZE` bytes, running it again with the same DPI returns
the same bytes unchanged. -/
theorem patch_idempotent_within_bound (input : List Nat) (dpi : Int) (out : List Nat)
    (hok : update_png_dpi input dpi = .ok out)
    (hsz : out.length ≤ MAX_PNG_SIZE) :
    update_png_dpi out dpi = .ok out := by
  obtain ⟨hmax, h8, hsig, hloop⟩ := update_ok_elim input dpi out hok
  have hMAXv : MAX_PNG_SIZE = 33554432 := rfl
  have hcapb : MAX_PNG_SIZE + 64 + 16 < 4294967296 := by omega
  obtain ⟨ds, hres, hwf, hiend, hfix⟩ :=
    loopF_general (MAX_PNG_SIZE + 64) (_png_dpi_to_ppm dpi) hcapb _ _ pngSig false out
      (le_refl _) hloop
  subst hres
  have hlen : ((pngSig : List Nat) ++ serializeChunks ds).length =
      8 + (serializeChunks ds).length := by
    rw [List.length_append]
    rfl
  rw [hlen] at hsz
  rw [update_png_dpi, hlen, if_neg (by omega)]
  rw [if_neg (by
    push_neg
    exact ⟨by omega, List.take_left' rfl⟩)]
  rw [pngPatchLoop, List.take_left' (show (pngSig : List Nat).length = 8 from rfl),
    List.drop_left' (show (pngSig : List Nat).length = 8 from rfl)]
  have hscan : scanChunksF (serializeChunks ds).length (serializeChunks ds) = some ds :=
    scanF_serialize ds _ (le_refl _) hwf hiend
  have h32 : (serializeChunks ds).length < 4294967296 := by omega
  have hcap : (pngSig : List Nat).length +
      (serializeChunks (patchChunks (_png_dpi_to_ppm dpi) false ds)).length ≤
      MAX_PNG_SIZE + 64 := by
    rw [hfix]
    show 8 + _ ≤ MAX_PNG_SIZE + 64
    omega
  have hcomp := loopF_complete (MAX_PNG_SIZE + 64) (_png_dpi_to_ppm dpi) _ _
    pngSig false ds (le_refl _) h32 hscan hcap
  rw [hfix] at hcomp
  exact hcomp

/-- Witness for the amended C6: patching the bare signature succeeds, its
output is within the bound, and a second patch returns it unchanged. -/
theorem patch_idempotent_within_bound_witness :
    update_png_dpi pngSig 300 = .ok pngSig :=
  patch_idempotent_within_bound pngSig 300 pngSig rfl (by decide)

/-- Claim C6 (counterexample): for the `MAX_PNG_SIZE`-byte input consisting
of the signature plus one maximal IDAT chunk, the first patch succeeds and
emits 21 extra bytes, but the second application of the same transformation
fails with code 4 (input exceeds `MAX_PNG_SIZE`) instead of reproducing the
output, so patching twice is not byte-identical to patching once. -/
theorem idempotence_fails_at_max_boundary :
    update_png_dpi bigInput 300 = .ok bigOutput ∧
    update_png_dpi bigOutput 300 = .error 4 := by
  have hdata : bigChunk.data.length = bigLen := List.length_replicate _ _
  have hwfbig : wfChunk bigChunk := by
    refine ⟨rfl, rfl, rfl, ?_, ?_⟩
    · rw [hdata]
      decide
    · rw [hdata]
      decide
  have hsig8 : (pngSig : List Nat).length = 8 := rfl
  have hserbig : (serializeChunks [bigChunk]).length = 12 + bigLen := by
    rw [serializeChunks_cons, serializeChunks_nil, List.append_nil,
      chunkBytes_length hwfbig, hdata]
  have hbiglen : bigInput.length = 20 + bigLen := by
    rw [bigInput, List.length_append, hserbig]
    rfl
  have hMAXv : MAX_PNG_SIZE = 33554432 := rfl
  have hbigv : bigLen = 33554412 := rfl
  have h21 : (chunkBytes (physChunk (_png_dpi_to_ppm 300))).length = 21 := by
    rw [chunkBytes_physChunk]
    exact _png_emit_pHYs_length _
  constructor
  · rw [update_png_dpi, if_neg (by omega)]
    rw [if_neg (by
      push_neg
      refine ⟨by omega, ?_⟩
      rw [bigInput]
      exact List.take_left' rfl)]
    rw [pngPatchLoop]
    rw [show bigInput.drop 8 = serializeChunks [bigChunk] by
      rw [bigInput]; exact List.drop_left' rfl]
    rw [show bigInput.take 8 = pngSig by
      rw [bigInput]; exact List.take_left' rfl]
    have hscan : scanChunksF (serializeChunks [bigChunk]).length
        (serializeChunks [bigChunk]) = some [bigChunk] :=
      scanF_serialize [bigChunk] _ (le_refl _)
        (by
          intro c hc
          simp at hc
          subst hc
          exact hwfbig)
        ⟨fun _ => rfl, trivial⟩
    have h32 : (serializeChunks [bigChunk]).length < 4294967296 := by
      rw [hserbig]
      omega
    have hpatch : patchChunks (_png_dpi_to_ppm 300) false [bigChunk] =
        [physChunk (_png_dpi_to_ppm 300), bigChunk] := by
      rw [patchChunks_cons_idat _ _ _ (show bigChunk.typ = idatTag from rfl)]
      rfl
    have hcap : (pngSig : List Nat).length +
        (serializeChunks (patchChunks (_png_dpi_to_ppm 300) false [bigChunk])).length ≤
        MAX_PNG_SIZE + 64 := by
      rw [hpatch, serializeChunks_cons, serializeChunks_cons, serializeChunks_nil,
        List.append_nil, List.length_append, h21, chunkBytes_length hwfbig, hdata,
        hsig8]
      decide
    have hcomp := loopF_complete (MAX_PNG_SIZE + 64) (_png_dpi_to_ppm 300) _ _
      pngSig false [bigChunk] (le_refl _) h32 hscan hcap
    rw [hcomp, hpatch, bigOutput]
  · have houtlen : bigOutput.length = 41 + bigLen := by
      rw [bigOutput, List.length_append, serializeChunks_cons, serializeChunks_cons,
        serializeChunks_nil, List.append_nil, List.length_append, h21,
        chunkBytes_length hwfbig, hdata, hsig8]
      rfl
    rw [update_png_dpi, if_pos (by omega)]

end PngDpi
